import Mathlib

/-!
Shallow embedding of the audio-effects processor of Seq80x25
(`audio_effects.py`), with exact-real semantics for the numpy
floating-point operations.  Lists of reals model 1-D numpy arrays;
Option models a raised Python exception (IndexError / ValueError).
-/

namespace Seq80x25

noncomputable section

open Real

/-- Python int() applied to a float: truncation toward zero. -/
def pyInt (x : ℝ) : ℤ := if 0 ≤ x then ⌊x⌋ else ⌈x⌉

/-- numpy.linspace a b n: n evenly spaced points from a to b, endpoint
included (numpy default); for n = 1 the single point is a. -/
def linspace (a b : ℝ) (n : ℕ) : List ℝ :=
  (List.range n).map (fun i : ℕ => if n = 1 then a else a + (b - a) * (i : ℝ) / ((n : ℝ) - 1))

/-- 1-D numpy integer indexing: a negative index counts from the end,
any other out-of-range index is an IndexError (none). -/
def npGet (l : List ℝ) (j : ℤ) : Option ℝ :=
  if 0 ≤ j then l.get? j.toNat
  else if 0 ≤ j + l.length then l.get? (j + l.length).toNat
  else none

/-- 1-D numpy elementwise addition with broadcasting: equal lengths add
pointwise, a length-1 operand is stretched, anything else is a ValueError. -/
def npAdd (a b : List ℝ) : Option (List ℝ) :=
  if a.length = b.length then some (List.zipWith (fun x y => x + y) a b)
  else if a.length = 1 then some (b.map (fun y => a.headD 0 + y))
  else if b.length = 1 then some (a.map (fun x => x + b.headD 0))
  else none

/-- numpy.clip: the upper bound wins when the bounds cross. -/
def npClip (x lo hi : ℝ) : ℝ := min hi (max lo x)

/-- np.max of np.abs of a buffer (0 on an empty list; the caller guards
emptiness where numpy would raise). -/
def npMaxAbs (l : List ℝ) : ℝ := (l.map (fun x => |x|)).foldr max 0

/-- Full linear convolution of two buffers, length M + N - 1. -/
def convFull (a v : List ℝ) : List ℝ :=
  (List.range (a.length + v.length - 1)).map (fun k =>
    ((List.range a.length).map (fun j =>
      if j ≤ k then a.getD j 0 * v.getD (k - j) 0 else 0)).sum)

/-- np.convolve in mode same: the centred max M N samples of the full
convolution. -/
def convSame (a v : List ℝ) : List ℝ :=
  ((convFull a v).drop ((min a.length v.length - 1) / 2)).take (max a.length v.length)

/-- reverb_length = int(room_size * sample_rate * 0.1). -/
def reverbLength (sr : ℕ) (room_size : ℝ) : ℕ := (pyInt (room_size * sr * 0.1)).toNat

/-- AudioEffects.apply_reverb.  The per-call draws of np.random.randn are
supplied as the stream rng. -/
def applyReverb (sr : ℕ) (rng : ℕ → ℝ) (audio : List ℝ) (room_size damping : ℝ) :
    Option (List ℝ) :=
  if room_size ≤ 0 then some audio
  else
    let L := reverbLength sr room_size
    let decay := (linspace 0 1 L).map (fun x => Real.exp (-damping * x))
    let impulse := List.zipWith (fun g d => g * d) ((List.range L).map rng) decay
    let impulse2 := impulse.map (fun x => x / (impulse.map (fun y => |y|)).sum * 0.3)
    if audio = [] ∨ L = 0 then none
    else npAdd (audio.map (fun x => (1 - room_size) * x))
               ((convSame audio impulse2).map (fun x => room_size * x))

/-- The sample-by-sample delay loop: at index i the output is the input
plus feedback times the ring value at the cursor (when i is at least
delay_samples); the current input sample is then unconditionally written
at the cursor, which advances modulo the ring capacity. -/
def delayLoop (fb : ℝ) (dsamp : ℤ) : List ℝ → ℕ → List ℝ → ℕ → List ℝ × List ℝ × ℕ
  | [], _, db, di => ([], db, di)
  | x :: xs, i, db, di =>
    let y := if dsamp ≤ (i : ℤ) then x + db.getD di 0 * fb else x
    let r := delayLoop fb dsamp xs (i + 1) (db.set di x) ((di + 1) % (db.set di x).length)
    (y :: r.1, r.2)

/-- AudioEffects.apply_delay.  Returns the mixed output buffer together
with the new ring contents and cursor; none models the IndexError a
non-empty buffer hits when the ring is empty. -/
def applyDelay (sr : ℕ) (db : List ℝ) (di : ℕ) (audio : List ℝ)
    (delay_time feedback mix : ℝ) : Option (List ℝ × List ℝ × ℕ) :=
  if delay_time ≤ 0 ∨ feedback ≤ 0 then some (audio, db, di)
  else if db.length = 0 ∧ audio ≠ [] then none
  else
    let r := delayLoop feedback (pyInt (delay_time * sr)) audio 0 db di
    some (List.zipWith (fun a o => (1 - mix) * a + mix * o) audio r.1, r.2.1, r.2.2)

/-- Sequential write of every input sample into the ring, cursor
advancing modulo the capacity; no reads. -/
def writeSeq : List ℝ → ℕ → List ℝ → List ℝ
  | db, _, [] => db
  | db, di, x :: xs => writeSeq (db.set di x) ((di + 1) % (db.set di x).length) xs

/-- Option-valued elementwise construction over a list of indices;
none as soon as one element raises. -/
def optMap (f : ℕ → Option ℝ) : List ℕ → Option (List ℝ)
  | [] => some []
  | i :: is =>
    match f i, optMap f is with
    | some y, some ys => some (y :: ys)
    | _, _ => none

/-- One chorus tap: chorus_audio i = audio (i - int (lfo i)) when
i is at least the (possibly negative) modulated offset, else 0. -/
def chorusAt (audio lfo : List ℝ) (i : ℕ) : Option ℝ :=
  let ds := pyInt (lfo.getD i 0)
  if ds ≤ (i : ℤ) then npGet audio ((i : ℤ) - ds) else some 0

/-- AudioEffects.apply_chorus. -/
def applyChorus (sr : ℕ) (audio : List ℝ) (rate depth mix : ℝ) : Option (List ℝ) :=
  if rate ≤ 0 ∨ depth ≤ 0 then some audio
  else
    let t := linspace 0 ((audio.length : ℝ) / sr) audio.length
    let lfo := t.map (fun x => Real.sin (2 * π * rate * x) * depth * sr)
    match optMap (chorusAt audio lfo) (List.range audio.length) with
    | none => none
    | some ca => some (List.zipWith (fun a c => (1 - mix) * a + mix * c) audio ca)

/-- The flanger accumulation loop over the working copy of the input. -/
def flangerLoop (fb : ℝ) (lfo : List ℝ) : ℕ → ℕ → List ℝ → Option (List ℝ)
  | _, 0, out => some out
  | i, fuel + 1, out =>
    let ds := pyInt (lfo.getD i 0)
    if ds ≤ (i : ℤ) then
      match npGet out ((i : ℤ) - ds) with
      | none => none
      | some v => flangerLoop fb lfo (i + 1) fuel (out.set i (out.getD i 0 + fb * v))
    else flangerLoop fb lfo (i + 1) fuel out

/-- AudioEffects.apply_flanger. -/
def applyFlanger (sr : ℕ) (audio : List ℝ) (rate depth feedback : ℝ) : Option (List ℝ) :=
  if rate ≤ 0 ∨ depth ≤ 0 then some audio
  else
    let t := linspace 0 ((audio.length : ℝ) / sr) audio.length
    let lfo := t.map (fun x => Real.sin (2 * π * rate * x) * depth * sr)
    match flangerLoop feedback lfo 0 audio.length audio with
    | none => none
    | some out =>
      if audio = [] then none
      else if 0 < npMaxAbs out then some (out.map (fun x => x / npMaxAbs out * 0.8))
      else some out

/-- AudioEffects.apply_distortion. -/
def applyDistortion (audio : List ℝ) (amount : ℝ) (type_ : String) : List ℝ :=
  if amount ≤ 0 then audio
  else if type_ = "soft" then audio.map (fun x => Real.tanh (x * (1 + amount * 5)))
  else if type_ = "hard" then audio.map (fun x => npClip x (-(1 - amount)) (1 - amount))
  else (audio.map (fun x => x * (1 + amount * 2))).map (fun x => npClip x (-0.8) 0.8)

/-- The one-pole lowpass recurrence, carrying the previous output. -/
def lowpassLoop (b a : ℝ) : ℝ → List ℝ → List ℝ
  | _, [] => []
  | prev, x :: xs =>
    let y := b * x + a * prev
    y :: lowpassLoop b a y xs

/-- The one-pole highpass recurrence, carrying previous output and input. -/
def highpassLoop (a : ℝ) : ℝ → ℝ → List ℝ → List ℝ
  | _, _, [] => []
  | yp, xp, x :: xs =>
    let y := a * (yp + x - xp)
    y :: highpassLoop a y x xs

/-- The biquad bandpass recurrence from index 2, carrying the two
previous inputs and outputs. -/
def bandpassLoop (b0 b1 b2 a0 a1 a2 : ℝ) : ℝ → ℝ → ℝ → ℝ → List ℝ → List ℝ
  | _, _, _, _, [] => []
  | x1, x2, y1, y2, x :: xs =>
    let y := (b0 * x + b1 * x1 + b2 * x2 - a1 * y1 - a2 * y2) / a0
    y :: bandpassLoop b0 b1 b2 a0 a1 a2 x x1 y y1 xs

/-- AudioEffects.apply_filter.  none models the IndexError the lowpass
and highpass branches hit on an empty buffer (they assign output 0). -/
def applyFilter (sr : ℕ) (audio : List ℝ) (filter_type : String)
    (cutoff resonance : ℝ) : Option (List ℝ) :=
  if cutoff ≤ 0 then some audio
  else
    let nc := 2 * cutoff / sr
    if filter_type = "lowpass" then
      match audio with
      | [] => none
      | x :: xs => some (nc * x :: lowpassLoop nc (1 - nc) (nc * x) xs)
    else if filter_type = "highpass" then
      match audio with
      | [] => none
      | x :: xs => some (x :: highpassLoop (1 - nc) x x xs)
    else if filter_type = "bandpass" then
      match audio with
      | [] => some []
      | [_] => some [0]
      | x0 :: x1 :: xs =>
        let alpha := Real.sin nc / (2 * resonance)
        some (0 :: 0 :: bandpassLoop alpha 0 (-alpha) (1 + alpha)
          (-2 * Real.cos nc) (1 - alpha) x1 x0 0 0 xs)
    else some audio

/-- attack_samples = int(attack * sample_rate), and likewise for release:
the conversion the compressor actually performs (no clamping). -/
def timeToSamples (sr : ℕ) (t : ℝ) : ℤ := pyInt (t * sr)

/-- Modelled from the spec: the clamped conversion the specification
prescribes for the compressor, max 1 (floor (t * sampleRate)). -/
def timeToSamplesSpec (sr : ℕ) (t : ℝ) : ℤ := max 1 (pyInt (t * sr))

/-- The compressor envelope/gain loop, carrying the scalar envelope. -/
def compressorLoop (attack_s release_s : ℤ) (threshold ratio : ℝ) :
    ℝ → List ℝ → List ℝ
  | _, [] => []
  | env, x :: xs =>
    let env2 := if env < |x| then env + (|x| - env) / (attack_s : ℝ)
                else env + (|x| - env) / (release_s : ℝ)
    let y := if threshold < env2
             then x * ((threshold + (env2 - threshold) / ratio) / env2)
             else x
    y :: compressorLoop attack_s release_s threshold ratio env2 xs

/-- AudioEffects.apply_compressor.  The envelope starts at 0 on every call. -/
def applyCompressor (sr : ℕ) (audio : List ℝ)
    (threshold ratio attack release : ℝ) : List ℝ :=
  if threshold ≤ 0 ∨ ratio ≤ 1 then audio
  else compressorLoop (timeToSamples sr attack) (timeToSamples sr release)
    threshold ratio 0 audio

/-- AudioEffects.apply_tremolo. -/
def applyTremolo (sr : ℕ) (audio : List ℝ) (rate depth : ℝ) : List ℝ :=
  if rate ≤ 0 ∨ depth ≤ 0 then audio
  else
    let t := linspace 0 ((audio.length : ℝ) / sr) audio.length
    let lfo := t.map (fun x => 1 - depth * (1 + Real.sin (2 * π * rate * x)) / 2)
    List.zipWith (fun a g => a * g) audio lfo

/-- The processor state: sample rate, the persistent 2-second delay ring
with its cursor, and the random stream with its draw position. -/
structure AudioEffects where
  sample_rate : ℕ
  delay_buffer : List ℝ
  delay_index : ℕ
  rng : ℕ → ℝ
  rngPos : ℕ

/-- AudioEffects.__init__. -/
def AudioEffects.init (sr : ℕ) (rng : ℕ → ℝ) : AudioEffects :=
  ⟨sr, List.replicate (sr * 2) 0, 0, rng, 0⟩

/-- One chain entry: a recognized EffectType member with its parameters,
or an unrecognized kind (matched by no dispatch branch). -/
inductive EffectSpec where
  | reverb (room_size damping : ℝ)
  | delay (delay_time feedback mix : ℝ)
  | chorus (rate depth mix : ℝ)
  | flanger (rate depth feedback : ℝ)
  | distortion (amount : ℝ) (type_ : String)
  | filter (filter_type : String) (cutoff resonance : ℝ)
  | compressor (threshold ratio attack release : ℝ)
  | tremolo (rate depth : ℝ)
  | unknown

/-- Whether a chain entry matches one of the eight dispatch branches. -/
def EffectSpec.recognized : EffectSpec → Bool
  | .unknown => false
  | _ => true

/-- Whether a chain entry is the delay stage. -/
def EffectSpec.isDelay : EffectSpec → Bool
  | .delay _ _ _ => true
  | _ => false

/-- Whether a chain entry is the reverb stage. -/
def EffectSpec.isReverb : EffectSpec → Bool
  | .reverb _ _ => true
  | _ => false

/-- Dispatch of one chain entry on the processor state: the delay stage
updates the ring and cursor, the reverb stage consumes random draws, an
unrecognized kind is skipped, every other stage leaves the state alone. -/
def runEffect (e : EffectSpec) (audio : List ℝ) (s : AudioEffects) :
    Option (List ℝ × AudioEffects) :=
  match e with
  | .reverb rs d =>
    if rs ≤ 0 then some (audio, s)
    else (applyReverb s.sample_rate (fun k => s.rng (s.rngPos + k)) audio rs d).map
      (fun out => (out, { s with rngPos := s.rngPos + reverbLength s.sample_rate rs }))
  | .delay dt fb mix =>
    (applyDelay s.sample_rate s.delay_buffer s.delay_index audio dt fb mix).map
      (fun r => (r.1, { s with delay_buffer := r.2.1, delay_index := r.2.2 }))
  | .chorus r d m => (applyChorus s.sample_rate audio r d m).map (fun out => (out, s))
  | .flanger r d fb => (applyFlanger s.sample_rate audio r d fb).map (fun out => (out, s))
  | .distortion a t => some (applyDistortion audio a t, s)
  | .filter ft c q => (applyFilter s.sample_rate audio ft c q).map (fun out => (out, s))
  | .compressor th ra atk rel => some (applyCompressor s.sample_rate audio th ra atk rel, s)
  | .tremolo r d => some (applyTremolo s.sample_rate audio r d, s)
  | .unknown => some (audio, s)

/-- AudioEffects.apply_multiple_effects: fold the chain left to right,
each stage output feeding the next stage input. -/
def applyMultipleEffects : List EffectSpec → List ℝ → AudioEffects →
    Option (List ℝ × AudioEffects)
  | [], audio, s => some (audio, s)
  | e :: rest, audio, s =>
    match runEffect e audio s with
    | none => none
    | some p => applyMultipleEffects rest p.1 p.2

/-- Concrete distortion type strings used by dispatch. -/
def softType : String := "soft"

/-- Concrete distortion type string for the hard-clipping branch. -/
def hardType : String := "hard"

/-- Concrete filter type string for the one-pole lowpass branch. -/
def lowpassType : String := "lowpass"

/-- The delay loop never changes the length of the ring. -/
theorem delayLoop_db_length (fb : ℝ) (ds : ℤ) (xs : List ℝ) :
    ∀ (i : ℕ) (db : List ℝ) (di : ℕ),
      (delayLoop fb ds xs i db di).2.1.length = db.length := by
  induction xs with
  | nil => intro i db di; rfl
  | cons x xs ih =>
    intro i db di
    simp only [delayLoop]
    rw [ih]
    simp

/-- The delay loop produces one output sample per input sample. -/
theorem delayLoop_fst_length (fb : ℝ) (ds : ℤ) (xs : List ℝ) :
    ∀ (i : ℕ) (db : List ℝ) (di : ℕ),
      (delayLoop fb ds xs i db di).1.length = xs.length := by
  induction xs with
  | nil => intro i db di; rfl
  | cons x xs ih =>
    intro i db di
    simp only [delayLoop, List.length_cons]
    rw [ih]

/-- The ring the delay loop leaves behind is exactly the sequential write
of every input sample at successive cursor positions. -/
theorem delayLoop_db_writeSeq (fb : ℝ) (ds : ℤ) (xs : List ℝ) :
    ∀ (i : ℕ) (db : List ℝ) (di : ℕ),
      (delayLoop fb ds xs i db di).2.1 = writeSeq db di xs := by
  induction xs with
  | nil => intro i db di; rfl
  | cons x xs ih =>
    intro i db di
    simp only [delayLoop, writeSeq]
    exact ih (i + 1) (db.set di x) ((di + 1) % (db.set di x).length)

/-- After the delay loop the cursor has advanced by the number of input
samples, modulo the ring capacity. -/
theorem delayLoop_index (fb : ℝ) (ds : ℤ) (xs : List ℝ) :
    ∀ (i : ℕ) (db : List ℝ) (di : ℕ), 0 < db.length → di < db.length →
      (delayLoop fb ds xs i db di).2.2 = (di + xs.length) % db.length := by
  induction xs with
  | nil =>
    intro i db di h0 hdi
    simp [delayLoop, Nat.mod_eq_of_lt hdi]
  | cons x xs ih =>
    intro i db di h0 hdi
    simp only [delayLoop, List.length_cons]
    rw [ih (i + 1) (db.set di x) ((di + 1) % (db.set di x).length)
      (by simpa using h0) (Nat.mod_lt _ (by simpa using h0))]
    simp only [List.length_set]
    rw [Nat.mod_add_mod]
    congr 1
    omega

/-- C1: Identity on degenerate parameters: reverb with room_size ≤ 0,
delay with delay_time ≤ 0 or feedback ≤ 0, chorus, flanger and tremolo
with rate ≤ 0 or depth ≤ 0, distortion with amount ≤ 0 and filter with
cutoff ≤ 0 each return the input buffer unchanged (delay also leaves the
ring and cursor untouched), and none of these calls raises. -/
theorem claim_C1 (sr : ℕ) (rng : ℕ → ℝ) (db : List ℝ) (di : ℕ) (audio : List ℝ) :
    (∀ rs d, rs ≤ 0 → applyReverb sr rng audio rs d = some audio) ∧
    (∀ dt fb mix, dt ≤ 0 ∨ fb ≤ 0 →
      applyDelay sr db di audio dt fb mix = some (audio, db, di)) ∧
    (∀ r d m, r ≤ 0 ∨ d ≤ 0 → applyChorus sr audio r d m = some audio) ∧
    (∀ r d fb, r ≤ 0 ∨ d ≤ 0 → applyFlanger sr audio r d fb = some audio) ∧
    (∀ r d, r ≤ 0 ∨ d ≤ 0 → applyTremolo sr audio r d = audio) ∧
    (∀ a t, a ≤ 0 → applyDistortion audio a t = audio) ∧
    (∀ ft c q, c ≤ 0 → applyFilter sr audio ft c q = some audio) := by
  refine ⟨?_, ?_, ?_, ?_, ?_, ?_, ?_⟩
  · intro rs d h; unfold applyReverb; rw [if_pos h]
  · intro dt fb mix h; unfold applyDelay; rw [if_pos h]
  · intro r d m h; unfold applyChorus; rw [if_pos h]
  · intro r d fb h; unfold applyFlanger; rw [if_pos h]
  · intro r d h; unfold applyTremolo; rw [if_pos h]
  · intro a t h; unfold applyDistortion; rw [if_pos h]
  · intro ft c q h; unfold applyFilter; rw [if_pos h]

/-- C1 witness: every degenerate guard fires on a concrete buffer. -/
theorem claim_C1_witness :
    applyReverb 4 (fun _ => 1) [1, 2] 0 (1/2) = some [1, 2] ∧
    applyDelay 4 [0, 0] 0 [1, 2] 0 (1/2) (1/2) = some ([1, 2], [0, 0], 0) ∧
    applyChorus 4 [1, 2] 0 1 (1/2) = some [1, 2] ∧
    applyFlanger 4 [1, 2] 0 1 (1/2) = some [1, 2] ∧
    applyTremolo 4 [1, 2] 0 1 = [1, 2] ∧
    applyDistortion [1, 2] 0 softType = [1, 2] ∧
    applyFilter 4 [1, 2] lowpassType 0 1 = some [1, 2] := by
  obtain ⟨h1, h2, h3, h4, h5, h6, h7⟩ := claim_C1 4 (fun _ => 1) [0, 0] 0 [1, 2]
  exact ⟨h1 0 (1/2) le_rfl, h2 0 (1/2) (1/2) (Or.inl le_rfl),
    h3 0 1 (1/2) (Or.inl le_rfl), h4 0 1 (1/2) (Or.inl le_rfl),
    h5 0 1 (Or.inl le_rfl), h6 0 softType le_rfl, h7 lowpassType 0 1 le_rfl⟩

/-- Chain execution distributes over list append. -/
theorem applyMultipleEffects_append (l1 l2 : List EffectSpec) (audio : List ℝ)
    (s : AudioEffects) :
    applyMultipleEffects (l1 ++ l2) audio s =
      (applyMultipleEffects l1 audio s).bind (fun p => applyMultipleEffects l2 p.1 p.2) := by
  induction l1 generalizing audio s with
  | nil => rfl
  | cons e rest ih =>
    simp only [List.cons_append, applyMultipleEffects]
    cases h : runEffect e audio s with
    | none => rfl
    | some p => exact ih p.1 p.2

/-- C5: Sequential composition: running a two-element chain equals
running the first stage and feeding its output buffer and resulting
processor state into the second stage. -/
theorem claim_C5 (A C : EffectSpec) (hA : A.recognized = true) (hC : C.recognized = true)
    (audio : List ℝ) (s : AudioEffects) :
    applyMultipleEffects [A, C] audio s =
      (runEffect A audio s).bind (fun p => runEffect C p.1 p.2) := by
  cases h1 : runEffect A audio s with
  | none => simp [applyMultipleEffects, h1]
  | some p =>
    cases h2 : runEffect C p.1 p.2 with
    | none => simp [applyMultipleEffects, h1, h2]
    | some q => simp [applyMultipleEffects, h1, h2]

/-- C5 witness: the composition law at a concrete chain and state. -/
theorem claim_C5_witness :
    applyMultipleEffects [.tremolo 1 1, .distortion 1 hardType] [1/2]
        (AudioEffects.init 4 (fun _ => 1)) =
      (runEffect (.tremolo 1 1) [1/2] (AudioEffects.init 4 (fun _ => 1))).bind
        (fun p => runEffect (.distortion 1 hardType) p.1 p.2) :=
  claim_C5 (.tremolo 1 1) (.distortion 1 hardType) rfl rfl [1/2]
    (AudioEffects.init 4 (fun _ => 1))

/-- C6: An unrecognized chain entry is skipped silently (it maps the
buffer and state to themselves, never an error), and a whole chain
computes the same result as the chain with all unrecognized entries
removed. -/
theorem claim_C6 :
    (∀ audio s, runEffect .unknown audio s = some (audio, s)) ∧
    ∀ chain audio s, applyMultipleEffects chain audio s =
      applyMultipleEffects (chain.filter (fun e => e.recognized)) audio s := by
  refine ⟨fun audio s => rfl, ?_⟩
  intro chain
  induction chain with
  | nil => intro audio s; rfl
  | cons e rest ih =>
    intro audio s
    cases he : e.recognized with
    | false =>
      have hu : e = .unknown := by
        cases e <;> simp [EffectSpec.recognized] at he ⊢
      subst hu
      simpa [applyMultipleEffects, runEffect, List.filter_cons, he] using ih audio s
    | true =>
      cases h : runEffect e audio s with
      | none => simp [applyMultipleEffects, List.filter_cons, he, h]
      | some p =>
        simpa [applyMultipleEffects, List.filter_cons, he, h] using ih p.1 p.2

/-- C4: Delay-line frame and cursor invariant: a non-delay stage never
touches the ring or cursor; a degenerate delay call leaves buffer and
state exactly as they were; an effective delay call on an N-sample buffer
writes every input sample into the ring in order, moves the cursor to
(old cursor + N) mod (2 * sample_rate), and never changes the ring length
2 * sample_rate. -/
theorem claim_C4 (s : AudioEffects) (audio : List ℝ)
    (hlen : s.delay_buffer.length = 2 * s.sample_rate)
    (hsr : 0 < s.sample_rate) (hdi : s.delay_index < 2 * s.sample_rate) :
    (∀ e : EffectSpec, e.isDelay = false → ∀ p, runEffect e audio s = some p →
      p.2.delay_buffer = s.delay_buffer ∧ p.2.delay_index = s.delay_index) ∧
    (∀ dt fb mix, dt ≤ 0 ∨ fb ≤ 0 →
      runEffect (.delay dt fb mix) audio s = some (audio, s)) ∧
    (∀ dt fb mix, 0 < dt → 0 < fb → ∃ out s',
      runEffect (.delay dt fb mix) audio s = some (out, s') ∧
      s'.delay_buffer = writeSeq s.delay_buffer s.delay_index audio ∧
      s'.delay_index = (s.delay_index + audio.length) % (2 * s.sample_rate) ∧
      s'.delay_buffer.length = 2 * s.sample_rate) := by
  obtain ⟨sr, db, di, rng, rp⟩ := s
  simp only at hlen hsr hdi
  refine ⟨?_, ?_, ?_⟩
  · intro e he p h
    cases e with
    | reverb rs d =>
      simp only [runEffect] at h
      split_ifs at h with hrs
      · obtain rfl := Option.some.inj h
        exact ⟨rfl, rfl⟩
      · rw [Option.map_eq_some'] at h
        obtain ⟨a, _, rfl⟩ := h
        exact ⟨rfl, rfl⟩
    | delay dt fb mix => simp [EffectSpec.isDelay] at he
    | chorus r d m =>
      simp only [runEffect, Option.map_eq_some'] at h
      obtain ⟨a, _, rfl⟩ := h
      exact ⟨rfl, rfl⟩
    | flanger r d fb =>
      simp only [runEffect, Option.map_eq_some'] at h
      obtain ⟨a, _, rfl⟩ := h
      exact ⟨rfl, rfl⟩
    | distortion a t =>
      obtain rfl := Option.some.inj h
      exact ⟨rfl, rfl⟩
    | filter ft c q =>
      simp only [runEffect, Option.map_eq_some'] at h
      obtain ⟨a, _, rfl⟩ := h
      exact ⟨rfl, rfl⟩
    | compressor th ra atk rel =>
      obtain rfl := Option.some.inj h
      exact ⟨rfl, rfl⟩
    | tremolo r d =>
      obtain rfl := Option.some.inj h
      exact ⟨rfl, rfl⟩
    | unknown =>
      obtain rfl := Option.some.inj h
      exact ⟨rfl, rfl⟩
  · intro dt fb mix h
    simp [runEffect, applyDelay, if_pos h]
  · intro dt fb mix hdt hfb
    have hguard : ¬ (dt ≤ 0 ∨ fb ≤ 0) := by
      rw [not_or]
      exact ⟨not_le.mpr hdt, not_le.mpr hfb⟩
    have hdb0 : ¬ (db.length = 0 ∧ audio ≠ []) := by
      intro hc
      rw [hlen] at hc
      omega
    refine ⟨List.zipWith (fun a o => (1 - mix) * a + mix * o) audio
        (delayLoop fb (pyInt (dt * sr)) audio 0 db di).1,
      ⟨sr, (delayLoop fb (pyInt (dt * sr)) audio 0 db di).2.1,
        (delayLoop fb (pyInt (dt * sr)) audio 0 db di).2.2, rng, rp⟩, ?_, ?_, ?_, ?_⟩
    · have hd : applyDelay sr db di audio dt fb mix =
          some (List.zipWith (fun a o => (1 - mix) * a + mix * o) audio
            (delayLoop fb (pyInt (dt * sr)) audio 0 db di).1,
            (delayLoop fb (pyInt (dt * sr)) audio 0 db di).2.1,
            (delayLoop fb (pyInt (dt * sr)) audio 0 db di).2.2) := by
        unfold applyDelay
        rw [if_neg hguard, if_neg hdb0]
      simp only [runEffect, hd, Option.map_some']
    · exact delayLoop_db_writeSeq fb (pyInt (dt * sr)) audio 0 db di
    · show (delayLoop fb (pyInt (dt * sr)) audio 0 db di).2.2 = _
      rw [delayLoop_index fb (pyInt (dt * sr)) audio 0 db di
        (by rw [hlen]; omega) (by rw [hlen]; exact hdi), hlen]
    · show (delayLoop fb (pyInt (dt * sr)) audio 0 db di).2.1.length = _
      rw [delayLoop_db_length, hlen]

/-- C4 witness: an effective delay call on a one-sample buffer from a
concrete well-formed processor state. -/
theorem claim_C4_witness :
    ∃ out s', runEffect (.delay 1 1 0) [5] ⟨1, [0, 0], 0, fun _ => 1, 0⟩ = some (out, s') ∧
      s'.delay_buffer = writeSeq [0, 0] 0 [5] ∧
      s'.delay_index = (0 + List.length [5]) % (2 * 1) ∧
      s'.delay_buffer.length = 2 * 1 :=
  (claim_C4 ⟨1, [0, 0], 0, fun _ => 1, 0⟩ [5] (by simp) (by norm_num)
    (by norm_num)).2.2 1 1 0 one_pos one_pos

/-- On a tail of zeros the one-pole lowpass recurrence decays the carried
value geometrically. -/
theorem lowpassLoop_replicate (b a p : ℝ) (n : ℕ) :
    lowpassLoop b a p (List.replicate n 0) =
      (List.range n).map (fun k => a ^ (k + 1) * p) := by
  induction n generalizing p with
  | zero => rfl
  | succ n ih =>
    rw [List.replicate_succ]
    show (b * 0 + a * p) :: lowpassLoop b a (b * 0 + a * p) (List.replicate n 0) = _
    rw [ih (b * 0 + a * p), List.range_succ_eq_map, List.map_cons, List.map_map]
    have h2 : (fun k => a ^ (k + 1) * (b * 0 + a * p)) =
        ((fun k => a ^ (k + 1) * p) ∘ Nat.succ) := by
      funext k
      simp only [Function.comp, Nat.succ_eq_add_one]
      ring
    rw [h2]
    have h1 : b * 0 + a * p = a ^ (0 + 1) * p := by ring
    rw [h1]

/-- Closed form for the lowpass output on a unit impulse. -/
theorem lowpass_impulse_get (b : ℝ) (n i : ℕ) :
    (b * 1 :: lowpassLoop b (1 - b) (b * 1) (List.replicate n 0)).get? i =
      if i ≤ n then some ((1 - b) ^ i * (b * 1)) else none := by
  rw [lowpassLoop_replicate]
  cases i with
  | zero => simp
  | succ i =>
    rw [List.get?_cons_succ, List.get?_map]
    by_cases h : i < n
    · rw [List.get?_range h]
      simp [Nat.succ_le_of_lt h]
    · rw [List.get?_eq_none.mpr (by simpa using h)]
      have : ¬ i + 1 ≤ n := by omega
      simp [this]

/-- C9: Lowpass monotone smoothing: with normalized coefficient
b = 2 * cutoff / sampleRate in (0, 1), the lowpass filter applied to the
unit impulse buffer yields a nonincreasing nonnegative output sequence. -/
theorem claim_C9 (sr : ℕ) (cutoff res : ℝ) (n : ℕ)
    (h0 : 0 < 2 * cutoff / sr) (h1 : 2 * cutoff / sr < 1) :
    ∃ y, applyFilter sr (1 :: List.replicate n 0) lowpassType cutoff res = some y ∧
      (∀ i x, y.get? i = some x → 0 ≤ x) ∧
      (∀ i x x', y.get? i = some x → y.get? (i + 1) = some x' → x' ≤ x) := by
  have hsrR : (0 : ℝ) < (sr : ℝ) := by
    rcases (Nat.cast_nonneg sr : (0 : ℝ) ≤ sr).lt_or_eq with h | h
    · exact h
    · rw [← h, div_zero] at h0
      exact absurd h0 (lt_irrefl 0)
  have hc : 0 < cutoff := by
    by_contra hcon
    push_neg at hcon
    have : 2 * cutoff / sr ≤ 0 := div_nonpos_iff.mpr (Or.inr ⟨by linarith, hsrR.le⟩)
    linarith
  have hguard : ¬ cutoff ≤ 0 := not_le.mpr hc
  refine ⟨2 * cutoff / sr * 1 ::
    lowpassLoop (2 * cutoff / sr) (1 - 2 * cutoff / sr) (2 * cutoff / sr * 1)
      (List.replicate n 0), ?_, ?_, ?_⟩
  · simp [applyFilter, lowpassType, hguard]
  · intro i x hx
    by_cases hi : i ≤ n
    · rw [lowpass_impulse_get, if_pos hi] at hx
      obtain rfl := Option.some.inj hx
      exact mul_nonneg (pow_nonneg (by linarith : (0:ℝ) ≤ 1 - 2 * cutoff / sr) i)
        (by linarith : (0:ℝ) ≤ 2 * cutoff / sr * 1)
    · rw [lowpass_impulse_get, if_neg hi] at hx
      exact absurd hx (by simp)
  · intro i x x' hx hx'
    by_cases hi : i + 1 ≤ n
    · rw [lowpass_impulse_get, if_pos (by omega : i ≤ n)] at hx
      rw [lowpass_impulse_get, if_pos hi] at hx'
      obtain rfl := Option.some.inj hx
      obtain rfl := Option.some.inj hx'
      have hpow := pow_le_pow_of_le_one
        (by linarith : (0:ℝ) ≤ 1 - 2 * cutoff / sr)
        (by linarith : 1 - 2 * cutoff / sr ≤ 1) (Nat.le_succ i)
      exact mul_le_mul_of_nonneg_right hpow (by linarith : (0:ℝ) ≤ 2 * cutoff / sr * 1)
    · rw [lowpass_impulse_get, if_neg hi] at hx'
      exact absurd hx' (by simp)

/-- C9 witness: concrete instance with sampleRate 4 and cutoff 1, so
b = 1/2, on the impulse buffer of length 4. -/
theorem claim_C9_witness :
    (0 : ℝ) < 2 * 1 / ((4 : ℕ) : ℝ) ∧
    ∃ y, applyFilter 4 (1 :: List.replicate 3 0) lowpassType 1 1 = some y ∧
      (∀ i x, y.get? i = some x → 0 ≤ x) ∧
      (∀ i x x', y.get? i = some x → y.get? (i + 1) = some x' → x' ≤ x) :=
  ⟨by norm_num, claim_C9 4 1 1 3 (by norm_num) (by norm_num)⟩

/-- Pointwise description of zipWith when the operand lengths agree. -/
theorem zipWith_get? (f : ℝ → ℝ → ℝ) :
    ∀ (as bs : List ℝ) (i : ℕ), as.length = bs.length →
      (List.zipWith f as bs).get? i =
        (as.get? i).bind (fun a => (bs.get? i).map (f a)) := by
  intro as
  induction as with
  | nil =>
    intro bs i h
    cases bs with
    | nil => rfl
    | cons b bs => simp at h
  | cons a as ih =>
    intro bs i h
    cases bs with
    | nil => simp at h
    | cons b bs =>
      cases i with
      | zero => rfl
      | succ i => simpa using ih bs i (by simpa using h)

/-- Pointwise description of linspace. -/
theorem linspace_get? (a b : ℝ) (n i : ℕ) (h : i < n) :
    (linspace a b n).get? i =
      some (if n = 1 then a else a + (b - a) * i / ((n : ℝ) - 1)) := by
  unfold linspace
  rw [List.get?_map, List.get?_range h]
  rfl

/-- C7 counterexample: at sampleRate 1 on the buffer [0, 1] with rate 1/8
and depth 1, the tremolo output at index 1 is 0, but the claimed formula
with time base t_i = i / sampleRate predicts the nonzero value
1 * (1 - (1 + sin (pi/4)) / 2); the code LFO uses the linspace time base
t_i = i * N / ((N - 1) * sampleRate) instead. -/
theorem claim_C7_counterexample :
    (applyTremolo 1 [0, 1] (1/8) 1).get? 1 ≠
      some ((1 : ℝ) * (1 - 1 * (1 + Real.sin (2 * π * (1/8) * ((1 : ℝ) / 1))) / 2)) := by
  have hrange : List.range 2 = [0, 1] := rfl
  have hval : applyTremolo 1 [0, 1] (1/8) 1 = [0, 0] := by
    unfold applyTremolo
    rw [if_neg (by norm_num)]
    simp only [linspace, List.length_cons, List.length_nil, hrange]
    norm_num [List.zipWith]
    rw [(by ring : 2 * π * (1/8) * 2 = π / 2), Real.sin_pi_div_two]
    norm_num
  rw [hval]
  have hs : Real.sin (2 * π * (1/8) * ((1 : ℝ) / 1)) = Real.sqrt 2 / 2 := by
    have harg : 2 * π * (1/8) * ((1 : ℝ) / 1) = π / 4 := by ring
    rw [harg, Real.sin_pi_div_four]
  rw [hs]
  intro h
  have h0 := Option.some.inj h
  have h4 : Real.sqrt 2 = 2 := by linarith
  have hsq : Real.sqrt 2 ^ 2 = 2 := Real.sq_sqrt (by norm_num)
  rw [h4] at hsq
  norm_num at hsq

/-- C7 (amended): tremolo output sample i equals
x i * (1 - depth * (1 + sin (2 pi rate t_i)) / 2), where the time base is
the linspace grid t_i = i * N / ((N - 1) * sampleRate) for a buffer of
length N, at least 2 (not i / sampleRate as originally claimed). -/
theorem claim_C7 (sr : ℕ) (audio : List ℝ) (rate depth : ℝ)
    (hr : 0 < rate) (hd : 0 < depth) (hN : 2 ≤ audio.length)
    (i : ℕ) (hi : i < audio.length) :
    (applyTremolo sr audio rate depth).get? i =
      (audio.get? i).map (fun x => x *
        (1 - depth * (1 + Real.sin (2 * π * rate *
          ((i : ℝ) * audio.length / (((audio.length : ℝ) - 1) * sr)))) / 2)) := by
  have hguard : ¬ (rate ≤ 0 ∨ depth ≤ 0) := by
    rw [not_or]
    exact ⟨not_le.mpr hr, not_le.mpr hd⟩
  simp only [applyTremolo]
  rw [if_neg hguard]
  rw [zipWith_get? _ audio _ i (by simp [linspace])]
  cases hx : audio.get? i with
  | none => simp
  | some x =>
    simp only [Option.some_bind, Option.map_some']
    rw [List.get?_map, linspace_get? 0 _ _ i hi, if_neg (by omega : ¬ audio.length = 1)]
    simp only [Option.map_some', Option.some.injEq]
    have harg : 2 * π * rate *
        (0 + ((audio.length : ℝ) / (sr : ℝ) - 0) * (i : ℝ) / ((audio.length : ℝ) - 1)) =
        2 * π * rate * ((i : ℝ) * audio.length / (((audio.length : ℝ) - 1) * sr)) := by
      rw [← div_div]
      ring
    rw [harg]

/-- C7 witness: the amended formula at the concrete counterexample point,
where it gives output sample 1 equal to 0. -/
theorem claim_C7_witness :
    (applyTremolo 1 [0, 1] (1/8) 1).get? 1 =
      (List.get? [0, 1] 1).map (fun x => x *
        (1 - 1 * (1 + Real.sin (2 * π * (1/8) *
          (((1 : ℕ) : ℝ) * (List.length [0, 1] : ℝ) /
            (((List.length [0, 1] : ℝ) - 1) * ((1 : ℕ) : ℝ))))) / 2)) :=
  claim_C7 1 [0, 1] (1/8) 1 (by norm_num) one_pos (by simp) 1 (by simp)

/-- One raising element makes the whole elementwise construction raise. -/
theorem optMap_eq_none (f : ℕ → Option ℝ) (l : List ℕ) (i : ℕ)
    (hmem : i ∈ l) (hf : f i = none) : optMap f l = none := by
  induction l with
  | nil => simp at hmem
  | cons j tl ih =>
    rcases List.mem_cons.mp hmem with rfl | hmem2
    · simp [optMap, hf]
    · cases hfj : f j with
      | none => simp [optMap, hfj]
      | some y => simp [optMap, hfj, ih hmem2]

/-- C3: apply_compressor converts attack time to int(attack * sample_rate)
with no clamping: at sample rate 44100 and attack 1/100000 the code count
is 0 (so the envelope update divides by zero), while the claimed clamped
count max 1 (floor (attack * sampleRate)) is 1. -/
theorem claim_C3_check :
    timeToSamples 44100 (1/100000) = 0 ∧
    timeToSamplesSpec 44100 (1/100000) = 1 := by
  have hval : ((1:ℝ)/100000) * ((44100:ℕ):ℝ) = 441/1000 := by norm_num
  have hfloor : pyInt ((1/100000 : ℝ) * ((44100:ℕ):ℝ)) = 0 := by
    unfold pyInt
    rw [if_pos (by rw [hval]; norm_num), hval]
    exact Int.floor_eq_zero_iff.mpr (Set.mem_Ico.mpr ⟨by norm_num, by norm_num⟩)
  constructor
  · show pyInt ((1/100000 : ℝ) * ((44100:ℕ):ℝ)) = 0
    exact hfloor
  · show max 1 (pyInt ((1/100000 : ℝ) * ((44100:ℕ):ℝ))) = 1
    rw [hfloor]
    simp

/-- C2: the chorus loop indexes out of bounds for in-domain parameters
(the LFO turns negative, making i - delay_samples exceed the buffer), and
the reverb raises when floor (room_size * sampleRate * 0.1) is 0 (numpy
convolve rejects an empty impulse): both stage calls raise, refuting
totality over the documented parameter domain. -/
theorem claim_C2_check :
    applyChorus 4 [0, 1] (3/2) 1 (1/2) = none ∧
    applyReverb 4 (fun _ => 1) [0, 1] (1/2) (1/2) = none := by
  constructor
  · have hlfo1 : (List.map (fun x => Real.sin (2 * π * (3/2) * x) * 1 * ((4:ℕ):ℝ))
        (linspace 0 ((List.length [(0:ℝ), 1] : ℝ) / ((4:ℕ):ℝ))
          (List.length [(0:ℝ), 1]))).getD 1 0 = -4 := by
      rw [List.getD_eq_getD_get?, List.get?_map,
        linspace_get? _ _ _ 1 (by simp), if_neg (by simp)]
      simp only [Option.map_some', Option.getD_some]
      rw [(by simp only [List.length_cons, List.length_nil]; push_cast; ring :
        2 * π * (3/2) *
        (0 + ((List.length [(0:ℝ), 1] : ℝ) / ((4:ℕ):ℝ) - 0) * ((1:ℕ):ℝ) /
          ((List.length [(0:ℝ), 1] : ℝ) - 1)) = π + π / 2)]
      rw [Real.sin_add_pi_div_two, Real.cos_pi]
      push_cast
      ring
    have hf1 : chorusAt [0, 1]
        (List.map (fun x => Real.sin (2 * π * (3/2) * x) * 1 * ((4:ℕ):ℝ))
          (linspace 0 ((List.length [(0:ℝ), 1] : ℝ) / ((4:ℕ):ℝ))
            (List.length [(0:ℝ), 1]))) 1 = none := by
      simp only [chorusAt, hlfo1]
      have hpy : pyInt (-4) = -4 := by
        unfold pyInt
        rw [if_neg (by norm_num), (by norm_num : ((-4 : ℝ)) = -(4:ℝ)), Int.ceil_neg]
        simp
      rw [hpy, if_pos (by norm_num)]
      unfold npGet
      rw [if_pos (by norm_num)]
      norm_num
    simp only [applyChorus]
    rw [if_neg (by norm_num)]
    rw [optMap_eq_none _ _ 1 (by simp) hf1]
  · have hL : reverbLength 4 (1/2) = 0 := by
      unfold reverbLength pyInt
      rw [if_pos (by norm_num), (by norm_num : (1/2 : ℝ) * ((4:ℕ):ℝ) * 0.1 = 1/5)]
      rw [Int.floor_eq_zero_iff.mpr (Set.mem_Ico.mpr ⟨by norm_num, by norm_num⟩)]
      rfl
    simp only [applyReverb]
    rw [if_neg (by norm_num)]
    rw [hL]
    simp

/-- linspace produces exactly n points. -/
theorem length_linspace (a b : ℝ) (n : ℕ) : (linspace a b n).length = n := by
  simp [linspace]

/-- Full convolution has length M + N - 1. -/
theorem length_convFull (a v : List ℝ) :
    (convFull a v).length = a.length + v.length - 1 := by
  simp [convFull]

/-- Mode-same convolution of non-empty operands has length max M N. -/
theorem length_convSame (a v : List ℝ) (ha : a ≠ []) (hv : v ≠ []) :
    (convSame a v).length = max a.length v.length := by
  have ha' : 1 ≤ a.length := List.length_pos.mpr ha
  have hv' : 1 ≤ v.length := List.length_pos.mpr hv
  unfold convSame
  rw [List.length_take, List.length_drop, length_convFull]
  omega

/-- Broadcasting addition with a length-1 left operand stretches it. -/
theorem npAdd_one_left (a b : List ℝ) (h1 : a.length = 1) (h2 : b.length ≠ 1) :
    npAdd a b = some (b.map (fun y => a.headD 0 + y)) := by
  unfold npAdd
  rw [if_neg (by rw [h1]; exact fun h => h2 h.symm), if_pos h1]

/-- Length of the broadcast sum with a length-1 left operand. -/
theorem npAdd_map_length_one_left (a b : List ℝ) (h1 : a.length = 1)
    (h2 : b.length ≠ 1) : (npAdd a b).map List.length = some b.length := by
  rw [npAdd_one_left a b h1 h2]
  simp

/-- Broadcasting addition of equal-length operands is pointwise. -/
theorem npAdd_same_length (a b : List ℝ) (h : a.length = b.length) :
    npAdd a b = some (List.zipWith (fun x y => x + y) a b) := by
  unfold npAdd
  rw [if_pos h]

/-- Broadcasting addition of equal-length operands keeps the length. -/
theorem npAdd_length_of_eq (a b : List ℝ) (h : a.length = b.length) :
    ∃ out, npAdd a b = some out ∧ out.length = a.length := by
  refine ⟨_, npAdd_same_length a b h, ?_⟩
  rw [List.length_zipWith, h]
  exact min_self _

/-- The lowpass recurrence produces one output per input. -/
theorem lowpassLoop_length (b a : ℝ) :
    ∀ (p : ℝ) (xs : List ℝ), (lowpassLoop b a p xs).length = xs.length := by
  intro p xs
  induction xs generalizing p with
  | nil => rfl
  | cons x xs ih => simp [lowpassLoop, ih]

/-- The highpass recurrence produces one output per input. -/
theorem highpassLoop_length (a : ℝ) :
    ∀ (yp xp : ℝ) (xs : List ℝ), (highpassLoop a yp xp xs).length = xs.length := by
  intro yp xp xs
  induction xs generalizing yp xp with
  | nil => rfl
  | cons x xs ih => simp [highpassLoop, ih]

/-- The bandpass recurrence produces one output per input. -/
theorem bandpassLoop_length (b0 b1 b2 a0 a1 a2 : ℝ) :
    ∀ (x1 x2 y1 y2 : ℝ) (xs : List ℝ),
      (bandpassLoop b0 b1 b2 a0 a1 a2 x1 x2 y1 y2 xs).length = xs.length := by
  intro x1 x2 y1 y2 xs
  induction xs generalizing x1 x2 y1 y2 with
  | nil => rfl
  | cons x xs ih => simp [bandpassLoop, ih]

/-- The compressor loop produces one output per input. -/
theorem compressorLoop_length (as rs : ℤ) (th ra : ℝ) :
    ∀ (env : ℝ) (xs : List ℝ),
      (compressorLoop as rs th ra env xs).length = xs.length := by
  intro env xs
  induction xs generalizing env with
  | nil => rfl
  | cons x xs ih =>
    simp only [compressorLoop, List.length_cons]
    rw [ih]

/-- A successful elementwise construction has one element per index. -/
theorem optMap_length (f : ℕ → Option ℝ) :
    ∀ (l : List ℕ) (ys : List ℝ), optMap f l = some ys → ys.length = l.length := by
  intro l
  induction l with
  | nil =>
    intro ys h
    obtain rfl := Option.some.inj h
    rfl
  | cons j tl ih =>
    intro ys h
    unfold optMap at h
    cases hfj : f j with
    | none => rw [hfj] at h; exact absurd h (by simp)
    | some y =>
      rw [hfj] at h
      cases hopt : optMap f tl with
      | none => rw [hopt] at h; exact absurd h (by simp)
      | some ys2 =>
        rw [hopt] at h
        obtain rfl := Option.some.inj h
        simp [ih ys2 hopt]

/-- The flanger loop preserves the working buffer length. -/
theorem flangerLoop_length (fb : ℝ) (lfo : List ℝ) :
    ∀ (fuel i : ℕ) (out out' : List ℝ),
      flangerLoop fb lfo i fuel out = some out' → out'.length = out.length := by
  intro fuel
  induction fuel with
  | zero =>
    intro i out out' h
    obtain rfl := Option.some.inj h
    rfl
  | succ fuel ih =>
    intro i out out' h
    simp only [flangerLoop] at h
    split_ifs at h with hds
    · cases hg : npGet out ((i : ℤ) - pyInt (lfo.getD i 0)) with
      | none => rw [hg] at h; exact absurd h (by simp)
      | some v =>
        rw [hg] at h
        have := ih (i + 1) _ out' h
        simpa using this
    · exact ih (i + 1) out out' h

/-- C8 counterexample: reverb at sample rate 10 with room_size 5 on a
one-sample buffer returns a buffer of length 5 (the impulse is longer
than the input, so the mode-same convolution and the numpy broadcast
stretch the output), violating length preservation. -/
theorem claim_C8_counterexample :
    (applyReverb 10 (fun _ => 1) [1] 5 0).map List.length = some 5 ∧ (5 : ℕ) ≠ 1 := by
  refine ⟨?_, by norm_num⟩
  have hL : reverbLength 10 5 = 5 := by
    unfold reverbLength pyInt
    rw [if_pos (by norm_num), (by norm_num : (5:ℝ) * ((10:ℕ):ℝ) * 0.1 = 5)]
    simp
  simp only [applyReverb]
  rw [if_neg (by norm_num : ¬ (5:ℝ) ≤ 0), hL]
  rw [if_neg (by simp : ¬ ([(1:ℝ)] = [] ∨ (5:ℕ) = 0))]
  refine Eq.trans (npAdd_map_length_one_left _ _ (by simp) ?_) ?_
  · rw [List.length_map, length_convSame _ _ (by simp)
      (List.ne_nil_of_length_pos (by simp [length_linspace]))]
    simp [length_linspace]
  · rw [List.length_map, length_convSame _ _ (by simp)
      (List.ne_nil_of_length_pos (by simp [length_linspace]))]
    simp [length_linspace]

/-- C8 (amended): every stage except reverb preserves the buffer length
whenever it returns; reverb preserves it exactly when the stochastic
impulse length floor (room_size * sampleRate * 0.1) lies between 1 and
the buffer length (otherwise it raises, or, on a one-sample buffer,
broadcasts to the longer impulse length as the counterexample shows). -/
theorem claim_C8 (sr : ℕ) (audio : List ℝ) (ha : audio ≠ []) :
    (∀ rng rs d, 0 < rs → 1 ≤ reverbLength sr rs → reverbLength sr rs ≤ audio.length →
      ∃ out, applyReverb sr rng audio rs d = some out ∧ out.length = audio.length) ∧
    (∀ db di dt fb mix out db' di',
      applyDelay sr db di audio dt fb mix = some (out, db', di') →
        out.length = audio.length) ∧
    (∀ r dep mix out, applyChorus sr audio r dep mix = some out →
      out.length = audio.length) ∧
    (∀ r dep fb out, applyFlanger sr audio r dep fb = some out →
      out.length = audio.length) ∧
    (∀ amt t, (applyDistortion audio amt t).length = audio.length) ∧
    (∀ ft c q out, applyFilter sr audio ft c q = some out →
      out.length = audio.length) ∧
    (∀ th ra atk rel, (applyCompressor sr audio th ra atk rel).length = audio.length) ∧
    (∀ r dep, (applyTremolo sr audio r dep).length = audio.length) := by
  refine ⟨?_, ?_, ?_, ?_, ?_, ?_, ?_, ?_⟩
  · intro rng rs d hrs hL1 hL2
    have hvne : (List.zipWith (fun g d2 => g * d2)
        ((List.range (reverbLength sr rs)).map rng)
        ((linspace 0 1 (reverbLength sr rs)).map
          (fun x => Real.exp (-d * x)))).length = reverbLength sr rs := by
      simp [length_linspace]
    have himpne : ((List.zipWith (fun g d2 => g * d2)
        ((List.range (reverbLength sr rs)).map rng)
        ((linspace 0 1 (reverbLength sr rs)).map
          (fun x => Real.exp (-d * x)))).map
          (fun x => x / ((List.zipWith (fun g d2 => g * d2)
            ((List.range (reverbLength sr rs)).map rng)
            ((linspace 0 1 (reverbLength sr rs)).map
              (fun x => Real.exp (-d * x)))).map (fun y => |y|)).sum * 0.3)) ≠ [] := by
      apply List.ne_nil_of_length_pos
      rw [List.length_map, hvne]
      omega
    simp only [applyReverb]
    rw [if_neg (not_le.mpr hrs)]
    rw [if_neg (by
      rw [not_or]
      exact ⟨ha, by omega⟩)]
    refine Exists.imp (fun out h0 => ⟨h0.1, Eq.trans h0.2 (by simp)⟩)
      (npAdd_length_of_eq _ _ ?_)
    rw [List.length_map, List.length_map, length_convSame _ _ ha himpne,
      List.length_map, hvne]
    omega
  · intro db di dt fb mix out db' di' h
    unfold applyDelay at h
    split_ifs at h with h1 h2
    · simp only [Option.some.injEq, Prod.mk.injEq] at h
      rw [← h.1]
    · simp only [Option.some.injEq, Prod.mk.injEq] at h
      rw [← h.1, List.length_zipWith, delayLoop_fst_length]
      exact min_self _
  · intro r dep mix out h
    simp only [applyChorus] at h
    split_ifs at h with hg
    · obtain rfl := Option.some.inj h
      rfl
    · split at h
      · exact absurd h (by simp)
      · rename_i ca heq
        obtain rfl := Option.some.inj h
        rw [List.length_zipWith, optMap_length _ _ _ heq, List.length_range]
        exact min_self _
  · intro r dep fb out h
    simp only [applyFlanger] at h
    split_ifs at h with hg
    · obtain rfl := Option.some.inj h
      rfl
    · split at h
      · exact absurd h (by simp)
      · rename_i o heq
        have hlen := flangerLoop_length _ _ _ _ _ _ heq
        split_ifs at h with hempty hmax
        · obtain rfl := Option.some.inj h
          rw [List.length_map, hlen]
        · obtain rfl := Option.some.inj h
          exact hlen
  · intro amt t
    unfold applyDistortion
    split_ifs <;> simp
  · intro ft c q out h
    simp only [applyFilter] at h
    split_ifs at h with h1 h2 h3 h4
    · obtain rfl := Option.some.inj h
      rfl
    · cases audio with
      | nil => exact absurd h (by simp)
      | cons x xs =>
        obtain rfl := Option.some.inj h
        simp [lowpassLoop_length]
    · cases audio with
      | nil => exact absurd h (by simp)
      | cons x xs =>
        obtain rfl := Option.some.inj h
        simp [highpassLoop_length]
    · cases audio with
      | nil =>
        obtain rfl := Option.some.inj h
        rfl
      | cons x0 rest =>
        cases rest with
        | nil =>
          obtain rfl := Option.some.inj h
          rfl
        | cons x1 xs =>
          obtain rfl := Option.some.inj h
          simp [bandpassLoop_length]
    · obtain rfl := Option.some.inj h
      rfl
  · intro th ra atk rel
    unfold applyCompressor
    split_ifs
    · rfl
    · exact compressorLoop_length _ _ _ _ _ _
  · intro r dep
    unfold applyTremolo
    split_ifs
    · rfl
    · rw [List.length_zipWith, List.length_map, length_linspace]
      exact min_self _

/-- C8 witness: length preservation of the distortion and tremolo stages
at a concrete two-sample buffer. -/
theorem claim_C8_witness :
    (applyDistortion [1, 2] (1/2) softType).length = List.length [(1:ℝ), 2] ∧
    (applyTremolo 10 [1, 2] 5 (1/2)).length = List.length [(1:ℝ), 2] :=
  ⟨(claim_C8 10 [1, 2] (by simp)).2.2.2.2.1 (1/2) softType,
   (claim_C8 10 [1, 2] (by simp)).2.2.2.2.2.2.2 5 (1/2)⟩

/-- C10: Determinism of every stage except reverb: any non-reverb stage
run on two processor states agreeing on sample rate and delay-line state
(but with arbitrary random streams) yields the same output buffer and the
same resulting delay-line contents and cursor. -/
theorem claim_C10 (e : EffectSpec) (he : e.isReverb = false) (audio : List ℝ)
    (s1 s2 : AudioEffects) (hsr : s1.sample_rate = s2.sample_rate)
    (hdb : s1.delay_buffer = s2.delay_buffer) (hdi : s1.delay_index = s2.delay_index) :
    (runEffect e audio s1).map (fun p => (p.1, p.2.delay_buffer, p.2.delay_index)) =
      (runEffect e audio s2).map (fun p => (p.1, p.2.delay_buffer, p.2.delay_index)) := by
  cases e with
  | reverb rs d => simp [EffectSpec.isReverb] at he
  | delay dt fb mix =>
    simp only [runEffect, hsr, hdb, hdi]
    cases applyDelay s2.sample_rate s2.delay_buffer s2.delay_index audio dt fb mix with
    | none => rfl
    | some r => simp
  | chorus r d m =>
    simp only [runEffect, hsr]
    cases applyChorus s2.sample_rate audio r d m with
    | none => rfl
    | some out => simp [hdb, hdi]
  | flanger r d fb =>
    simp only [runEffect, hsr]
    cases applyFlanger s2.sample_rate audio r d fb with
    | none => rfl
    | some out => simp [hdb, hdi]
  | distortion a t => simp [runEffect, hdb, hdi]
  | filter ft c q =>
    simp only [runEffect, hsr]
    cases applyFilter s2.sample_rate audio ft c q with
    | none => rfl
    | some out => simp [hdb, hdi]
  | compressor th ra atk rel => simp [runEffect, hsr, hdb, hdi]
  | tremolo r d => simp [runEffect, hsr, hdb, hdi]
  | unknown => simp [runEffect, hdb, hdi]

/-- C10 witness: the tremolo stage ignores the random stream and draw
position at a concrete buffer and concrete pair of states. -/
theorem claim_C10_witness :
    (runEffect (.tremolo 1 1) [1/2] ⟨4, [0, 0], 0, fun _ => 0, 0⟩).map
        (fun p => (p.1, p.2.delay_buffer, p.2.delay_index)) =
      (runEffect (.tremolo 1 1) [1/2] ⟨4, [0, 0], 0, fun _ => 7, 3⟩).map
        (fun p => (p.1, p.2.delay_buffer, p.2.delay_index)) :=
  claim_C10 (.tremolo 1 1) rfl [1/2] ⟨4, [0, 0], 0, fun _ => 0, 0⟩
    ⟨4, [0, 0], 0, fun _ => 7, 3⟩ rfl rfl rfl

end

end Seq80x25
